import Mathlib

/-!
Verification of the `cancer_sims` repository: a generation-synchronized
Yule/migration simulation (src/simulations.rs) built on a Sinkhorn-rescaled
transition matrix (src/pmatrix.rs) and an arena phylogeny (src/tree.rs).

Modelling conventions:
* `f64` values computed by closed rational operations (`+`, `*`, `/`) are
  modelled as exact rationals `ℚ`.  Where IEEE-754 non-finite behaviour is
  itself the subject of a claim (division by a zero row sum in `rescale`),
  a dedicated carrier `F` with `inf`/`nan` is used.
* External crates (`rand`, `rand_distr`, `ndarray`'s `WeightedIndex` use)
  are abstracted as an explicit environment of deterministic draw functions;
  the repository's own code is translated directly.
* A Rust `panic!` / `.unwrap()` failure is modelled as `none` (or the
  explicit `RustOutcome.panicked`), a returned `io::Result` error as an
  ordinary error value.
-/

/-- Carrier for `PMatrix.p : Array2<f64>`: a row-major list of rows of `ℚ`. -/
abbrev Mat : Type := List (List ℚ)

/-- Entry `m[[i, j]]` (out-of-range reads return junk `0`; in the source all
reads are in range). -/
def Mat.entry (m : Mat) (i j : ℕ) : ℚ := (m.getD i []).getD j 0

/-- Row sum of row `i` of `m`. -/
def Mat.rowSum (m : Mat) (i : ℕ) : ℚ := (m.getD i []).sum

/-- `PMatrix::new(n)` (src/pmatrix.rs:22-36): the double loop fills
diagonal entries with `0.5` and off-diagonal entries with `0.5 / (n - 1)`. -/
def PMatrix.new (n : ℕ) : Mat :=
  (List.range n).map (fun i =>
    (List.range n).map (fun j =>
      if i = j then (1 / 2 : ℚ) else (1 / 2 : ℚ) / ((n : ℚ) - 1)))

/-- `PMatrix::new_with_initial_conditions(n, migration_probability)`
(src/pmatrix.rs:38-54): diagonal `1 - migration_probability`, off-diagonal
`migration_probability / (n - 1)`. -/
def PMatrix.new_with_initial_conditions (n : ℕ) (migration_probability : ℚ) : Mat :=
  (List.range n).map (fun i =>
    (List.range n).map (fun j =>
      if i = j then 1 - migration_probability
      else migration_probability / ((n : ℚ) - 1)))

/-- Outcome of a Rust call whose only failure mode is a `panic!` (the
function's return type carries no error channel). -/
inductive RustOutcome (α : Type) where
  | ok (val : α)
  | panicked
deriving DecidableEq

/-- `PMatrix::from_vector(v, n)` (src/pmatrix.rs:56-60):
`Array2::from_shape_vec((n, n), v).unwrap()`.  `from_shape_vec` returns a
shape error when `v.len() != n * n`, and the `.unwrap()` turns that error
into a panic; on success the matrix is filled row-major. -/
def PMatrix.from_vector (v : List ℚ) (n : ℕ) : RustOutcome Mat :=
  if v.length = n * n then
    .ok ((List.range n).map (fun i => (List.range n).map (fun j => v.getD (i * n + j) 0)))
  else .panicked

/-- Dot product of two vectors, truncating at the shorter (`ndarray` `dot`
panics on length mismatch; all uses in the source are length-matched). -/
def dotL (xs ys : List ℚ) : ℚ := (List.zipWith (· * ·) xs ys).sum

/-- `p.dot(&v)`: matrix-vector product, one dot product per row. -/
def matVec (p : Mat) (v : List ℚ) : List ℚ := p.map (fun row => dotL row v)

/-- Column `j` of `p` (for square `p` this is row `j` of `p.t()`). -/
def Mat.col (p : Mat) (j : ℕ) : List ℚ := p.map (fun row => row.getD j 0)

/-- `p.t().dot(&v)` for a square matrix: entry `j` is `⟨column j of p, v⟩`. -/
def matTVec (p : Mat) (v : List ℚ) : List ℚ :=
  (List.range p.length).map (fun j => dotL (Mat.col p j) v)

/-- The body of the `for _ in 0..iters` loop of `PMatrix::rescale`
(src/pmatrix.rs:75-81), iterated by structural recursion on the remaining
iteration count: `r ← 1 / (p·c)` elementwise, then `c ← 1 / (pᵀ·r)`
elementwise (the column sums use the freshly updated `r`). -/
def rescaleLoop (p : Mat) : ℕ → List ℚ → List ℚ → List ℚ × List ℚ
  | 0, r, c => (r, c)
  | k + 1, _, c =>
      let r' := (matVec p c).map (fun e => 1 / e)
      let c' := (matTVec p r').map (fun e => 1 / e)
      rescaleLoop p k r' c'

/-- `PMatrix::rescale(iters)` (src/pmatrix.rs:69-86): run the loop from
all-ones scale vectors, then assemble
`q = p * r.insert_axis(Axis(1)) * c.insert_axis(Axis(0))`,
i.e. `q[i][j] = p[i][j] * r[i] * c[j]`. -/
def PMatrix.rescale (p : Mat) (iters : ℕ) : Mat :=
  let n := p.length
  let rc := rescaleLoop p iters (List.replicate n 1) (List.replicate n 1)
  List.zipWith (fun row ri => List.zipWith (fun x cj => x * ri * cj) row rc.2) p rc.1

/-- `PMatrix::diag_mul(v)` (src/pmatrix.rs:88-92):
`&self.p * &v.insert_axis(Axis(0))` broadcasts `v` across the rows, so each
row is multiplied elementwise by `v` — column `j` is scaled by `v[j]`. -/
def PMatrix.diag_mul (p : Mat) (v : List ℚ) : Mat :=
  p.map (fun row => List.zipWith (fun x w => x * w) row v)

/-- `f64::EPSILON` = 2⁻⁵², the constant used in `rescale_from_frequencies`. -/
def f64Epsilon : ℚ := 1 / 2 ^ 52

/-- `PMatrix::rescale_from_frequencies(frequencies)` (src/pmatrix.rs:102-113),
with the library float `exp` supplied as an explicit function `fexp`:
weights `w_i = fexp (-f_i + ε)` are normalized by their sum, the columns are
scaled by the normalized weights, and the result is rescaled for exactly
3 Sinkhorn iterations. -/
def PMatrix.rescale_from_frequencies (fexp : ℚ → ℚ) (p : Mat) (frequencies : List ℚ) : Mat :=
  let updated_freqs := frequencies.map (fun f => fexp (-f + f64Epsilon))
  let sum : ℚ := updated_freqs.sum
  let weights := updated_freqs.map (fun e => e / sum)
  PMatrix.rescale (PMatrix.diag_mul p weights) 3

/- ### Specification-side definitions for the rescale refinement claim -/

/-- One Sinkhorn-Knopp update as the SPEC states it: "`r ← 1 / (P·c)`
elementwise then `c ← 1 / (Pᵀ·r)` elementwise". -/
def sinkhornStep (p : Mat) (rc : List ℚ × List ℚ) : List ℚ × List ℚ :=
  let r := (matVec p rc.2).map (fun e => 1 / e)
  let c := (matTVec p r).map (fun e => 1 / e)
  (r, c)

/-- `diag(r) · p`: row `i` scaled by `r i`. -/
def diagLeft (r : List ℚ) (p : Mat) : Mat :=
  List.zipWith (fun ri row => row.map (fun x => ri * x)) r p

/-- `p · diag(c)`: column `j` scaled by `c j`. -/
def diagRight (p : Mat) (c : List ℚ) : Mat :=
  p.map (fun row => List.zipWith (fun x cj => x * cj) row c)

/-- `rescale` as the SPEC describes it: exactly `k` repetitions of the
two elementwise updates starting from all-ones vectors (expressed as a
`k`-fold function iterate — not a loop-until-convergence), returning
`Q = diag(r) · P · diag(c)`. -/
def rescaleSpec (p : Mat) (k : ℕ) : Mat :=
  let rc := (sinkhornStep p)^[k] (List.replicate p.length 1, List.replicate p.length 1)
  diagLeft rc.1 (diagRight p rc.2)

/- ### Helper lemmas -/

theorem getD_map_range {α : Type} (f : ℕ → α) (d : α) {i n : ℕ} (h : i < n) :
    ((List.range n).map f).getD i d = f i := by
  rw [List.getD_eq_getElem _ _ (by simpa using h)]
  simp

theorem sum_map_range (f : ℕ → ℚ) : ∀ n, ((List.range n).map f).sum = ∑ j in Finset.range n, f j
  | 0 => by simp
  | n + 1 => by
      rw [List.range_succ, List.map_append, List.sum_append, Finset.sum_range_succ,
        sum_map_range f n]
      simp

theorem getD_map_lt {α β : Type} (f : α → β) (p : List α) (d : α) (d' : β) {i : ℕ}
    (h : i < p.length) : (p.map f).getD i d' = f (p.getD i d) := by
  rw [List.getD_eq_getElem _ _ (by simpa using h), List.getElem_map,
    List.getD_eq_getElem _ _ h]

theorem getD_zipWith_lt {α β γ : Type} (f : α → β → γ) (xs : List α) (ys : List β)
    (da : α) (db : β) (dc : γ) {j : ℕ} (hx : j < xs.length) (hy : j < ys.length) :
    (List.zipWith f xs ys).getD j dc = f (xs.getD j da) (ys.getD j db) := by
  have hl : j < (List.zipWith f xs ys).length := by
    rw [List.length_zipWith]
    exact lt_min hx hy
  rw [List.getD_eq_getElem _ _ hl, List.getElem_zipWith,
    List.getD_eq_getElem _ _ hx, List.getD_eq_getElem _ _ hy]

theorem sum_range_ite (n i : ℕ) (hi : i < n) (a b : ℚ) :
    (∑ j in Finset.range n, if i = j then a else b) = (n : ℚ) * b + (a - b) := by
  have h : ∀ j ∈ Finset.range n, (if i = j then a else b) = b + (if i = j then a - b else 0) := by
    intro j _
    split <;> ring
  rw [Finset.sum_congr rfl h, Finset.sum_add_distrib, Finset.sum_const, Finset.sum_ite_eq,
    if_pos (Finset.mem_range.mpr hi), Finset.card_range, nsmul_eq_mul]

/- ### C4: rescale performs exactly k Sinkhorn updates -/

theorem rescaleLoop_eq_iterate (p : Mat) :
    ∀ (k : ℕ) (r c : List ℚ), rescaleLoop p k r c = (sinkhornStep p)^[k] (r, c)
  | 0, _, _ => rfl
  | k + 1, r, c => by
      rw [Function.iterate_succ_apply]
      exact rescaleLoop_eq_iterate p k _ _

theorem assemble_eq_diag :
    ∀ (p : Mat) (r c : List ℚ),
      List.zipWith (fun row ri => List.zipWith (fun x cj => x * ri * cj) row c) p r
        = diagLeft r (diagRight p c)
  | [], r, c => by cases r <;> rfl
  | row :: p, [], c => rfl
  | row :: p, ri :: r, c => by
      have hfun : (fun x cj => x * ri * cj) = fun (x cj : ℚ) => ri * (x * cj) := by
        funext x cj
        ring
      have ih := assemble_eq_diag p r c
      simp only [diagLeft, diagRight, List.map_cons, List.zipWith_cons_cons,
        List.map_zipWith] at ih ⊢
      rw [hfun, ih]

/-- C4: for every matrix `p` and iteration count `k`, `rescale` performs
exactly `k` repetitions of the two elementwise Sinkhorn updates
(`r ← 1/(P·c)` then `c ← 1/(Pᵀ·r)`), starting from all-ones vectors — a
fixed-count iterate, not a loop until convergence — and returns
`Q = diag(r)·P·diag(c)`. -/
theorem C4_rescale_is_fixed_count_sinkhorn (p : Mat) (k : ℕ) :
    PMatrix.rescale p k = rescaleSpec p k := by
  simp only [PMatrix.rescale, rescaleSpec]
  rw [rescaleLoop_eq_iterate]
  exact assemble_eq_diag p _ _

/- ### C5: entries and row sums of the two constructors -/

theorem new_entry_eq (n i j : ℕ) (hi : i < n) (hj : j < n) (a b : ℚ) :
    Mat.entry ((List.range n).map (fun i =>
        (List.range n).map (fun j => if i = j then a else b))) i j
      = if i = j then a else b := by
  unfold Mat.entry
  rw [getD_map_range _ _ hi, getD_map_range _ _ hj]

theorem new_rowSum_eq (n i : ℕ) (hi : i < n) (a b : ℚ) :
    Mat.rowSum ((List.range n).map (fun i =>
        (List.range n).map (fun j => if i = j then a else b))) i
      = (n : ℚ) * b + (a - b) := by
  unfold Mat.rowSum
  rw [getD_map_range _ _ hi, sum_map_range, sum_range_ite n i hi]

/-- C5: for `n ≥ 2`, `new` (spec: `uniform`) has diagonal `1/2` and
off-diagonal `(1/2)/(n-1)`, `new_with_initial_conditions` (spec:
`withMigrationRate`) has diagonal `1-p` and off-diagonal `p/(n-1)`, and in
both every row sums to 1 (exactly, in the exact-rational model of the
`f64` arithmetic). -/
theorem C5_constructor_entries_and_row_sums (n : ℕ) (hn : 2 ≤ n) (p : ℚ) :
    (∀ i j, i < n → j < n →
      Mat.entry (PMatrix.new n) i j = if i = j then (1 / 2 : ℚ) else (1 / 2 : ℚ) / ((n : ℚ) - 1)) ∧
    (∀ i, i < n → Mat.rowSum (PMatrix.new n) i = 1) ∧
    (∀ i j, i < n → j < n →
      Mat.entry (PMatrix.new_with_initial_conditions n p) i j
        = if i = j then 1 - p else p / ((n : ℚ) - 1)) ∧
    (∀ i, i < n → Mat.rowSum (PMatrix.new_with_initial_conditions n p) i = 1) := by
  have hne : (n : ℚ) - 1 ≠ 0 := by
    have h2 : (2 : ℚ) ≤ (n : ℚ) := by exact_mod_cast hn
    intro h
    linarith
  refine ⟨fun i j hi hj => new_entry_eq n i j hi hj _ _,
          fun i hi => ?_,
          fun i j hi hj => new_entry_eq n i j hi hj _ _,
          fun i hi => ?_⟩
  · rw [PMatrix.new, new_rowSum_eq n i hi]
    field_simp
    ring
  · rw [PMatrix.new_with_initial_conditions, new_rowSum_eq n i hi]
    field_simp
    ring

theorem C5_witness :
    Mat.entry (PMatrix.new 3) 0 1 = (1 / 2 : ℚ) / ((3 : ℚ) - 1) ∧
    Mat.rowSum (PMatrix.new 3) 0 = 1 ∧
    Mat.entry (PMatrix.new_with_initial_conditions 3 (1 / 4)) 1 1 = 1 - (1 / 4 : ℚ) ∧
    Mat.rowSum (PMatrix.new_with_initial_conditions 3 (1 / 4)) 2 = 1 := by
  obtain ⟨h1, h2, h3, h4⟩ := C5_constructor_entries_and_row_sums 3 (by decide) (1 / 4)
  refine ⟨?_, h2 0 (by decide), ?_, h4 2 (by decide)⟩
  · simpa using h1 0 1 (by decide) (by decide)
  · simpa using h3 1 1 (by decide) (by decide)

/- ### C6: diag_mul scales columns -/

/-- C6: `diag_mul` (spec: `scaleColumns`) multiplies every column `j` by
`weights[j]`, and on the worked example `[[2,3],[4,5]]` with weights
`[2,1]` yields exactly `[[4,3],[8,5]]`. -/
theorem C6_diag_mul_scales_columns :
    (∀ (p : Mat) (v : List ℚ) (i j : ℕ), i < p.length → j < (p.getD i []).length →
      j < v.length →
      Mat.entry (PMatrix.diag_mul p v) i j = Mat.entry p i j * v.getD j 0) ∧
    PMatrix.diag_mul [[2, 3], [4, 5]] [2, 1] = [[4, 3], [8, 5]] := by
  constructor
  · intro p v i j hi hj hv
    unfold Mat.entry PMatrix.diag_mul
    rw [getD_map_lt _ p [] _ hi, getD_zipWith_lt _ _ _ 0 0 0 hj hv]
  · norm_num [PMatrix.diag_mul]

theorem C6_witness :
    Mat.entry (PMatrix.diag_mul [[2, 3], [4, 5]] [2, 1]) 1 0
      = Mat.entry [[2, 3], [4, 5]] 1 0 * 2 := by
  have h := C6_diag_mul_scales_columns.1 [[2, 3], [4, 5]] [2, 1] 1 0
    (by decide) (by decide) (by decide)
  simpa using h

/- ### C7: from_vector with wrong length panics (no surfaced error) -/

/-- C7 (divergence witness): `from_vector` on a value list whose length is
not `n*n` results in a panic (`RustOutcome.panicked`, the model of the
source's `.unwrap()` on the shape error) — not a surfaced error value; the
function's return type has no error channel at all. -/
theorem C7_from_vector_wrong_length_panics (v : List ℚ) (n : ℕ) (h : v.length ≠ n * n) :
    PMatrix.from_vector v n = RustOutcome.panicked := by
  simp only [PMatrix.from_vector, if_neg h]

theorem C7_witness : PMatrix.from_vector [1, 2, 3] 2 = RustOutcome.panicked :=
  C7_from_vector_wrong_length_panics [1, 2, 3] 2 (by decide)

/- ### C8: rescale on a zero row — IEEE-faithful carrier -/

/-- Model of the nonnegative fragment of IEEE-754 `f64` relevant to
`rescale` on matrices with a zero row: exact rationals for finite values
(rounding is not modelled), plus `inf` (+∞, arising from `1.0 / 0.0`) and
`nan` (arising from `0.0 * inf` and propagated by every operation).
Negative values never arise in `rescale` from nonnegative inputs, so
signed infinities are not needed. -/
inductive F where
  | fin (q : ℚ)
  | inf
  | nan
deriving DecidableEq

/-- IEEE `+` on the nonnegative fragment. -/
def F.add : F → F → F
  | .nan, _ => .nan
  | _, .nan => .nan
  | .inf, _ => .inf
  | _, .inf => .inf
  | .fin a, .fin b => .fin (a + b)

/-- IEEE `*` on the nonnegative fragment: `0 * inf = nan`. -/
def F.mul : F → F → F
  | .nan, _ => .nan
  | _, .nan => .nan
  | .inf, .fin b => if b = 0 then .nan else .inf
  | .fin a, .inf => if a = 0 then .nan else .inf
  | .inf, .inf => .inf
  | .fin a, .fin b => .fin (a * b)

/-- `1.0 / e` in IEEE `f64` (nonnegative fragment): `1/0 = +inf`,
`1/inf = 0`, `1/nan = nan`. -/
def F.rcp : F → F
  | .nan => .nan
  | .inf => .fin 0
  | .fin a => if a = 0 then .inf else .fin (1 / a)

/-- `Array2<f64>` over the `F` carrier. -/
abbrev MatF : Type := List (List F)

def dotF (xs ys : List F) : F := (List.zipWith F.mul xs ys).foldr F.add (.fin 0)

def matVecF (p : MatF) (v : List F) : List F := p.map (fun row => dotF row v)

def colF (p : MatF) (j : ℕ) : List F := p.map (fun row => row.getD j .nan)

def matTVecF (p : MatF) (v : List F) : List F :=
  (List.range p.length).map (fun j => dotF (colF p j) v)

/-- The `rescale` loop body over `F` (same source loop as `rescaleLoop`,
src/pmatrix.rs:75-81, keeping the float special values). -/
def rescaleLoopF (p : MatF) : ℕ → List F → List F → List F × List F
  | 0, r, c => (r, c)
  | k + 1, _, c =>
      let r' := (matVecF p c).map F.rcp
      let c' := (matTVecF p r').map F.rcp
      rescaleLoopF p k r' c'

/-- `PMatrix::rescale` (src/pmatrix.rs:69-86) over the IEEE-faithful
carrier `F`.  Note the return type: a plain matrix — the source has no
error channel (`fn rescale(&self, iters: usize) -> Self`), so nothing can
be "failed explicitly". -/
def rescaleF (p : MatF) (iters : ℕ) : MatF :=
  let n := p.length
  let rc := rescaleLoopF p iters (List.replicate n (.fin 1)) (List.replicate n (.fin 1))
  List.zipWith (fun row ri => List.zipWith (fun x cj => F.mul (F.mul x ri) cj) row rc.2) p rc.1

/-- C8 (divergence witness): on the matrix `[[0,0],[1,1]]`, whose first row
is entirely zero, `rescale(3)` (the iteration count used by
`rescale_from_frequencies`) divides by the zero row sum, producing `inf`,
then `0 * inf = nan`, and returns — silently, there being no error channel
in its type — a matrix consisting entirely of `nan`: it does not fail with
an `IllDefinedRescale` error. -/
theorem C8_rescale_silently_propagates_nan :
    rescaleF [[F.fin 0, F.fin 0], [F.fin 1, F.fin 1]] 3
      = [[F.nan, F.nan], [F.nan, F.nan]] := by
  norm_num [rescaleF, rescaleLoopF, matVecF, matTVecF, dotF, colF, F.rcp, F.mul, F.add,
    List.range_succ, List.replicate, List.zipWith_cons_cons, List.foldr_cons, List.foldr_nil,
    List.getD_cons_zero, List.getD_cons_succ]

/- ### C9: external graph-layout tool failure handling -/

/-- Result of a Rust `std::io` operation: `ok`, or a propagated
`io::Error` (its payload is irrelevant here). -/
inductive IoResult (α : Type) where
  | ok (val : α)
  | err
deriving DecidableEq

/-- Outcome of `Command::new("dot")...status()`: `statusErr` when the
process cannot be spawned (e.g. the executable is missing — `status()`
returns an `io::Error`), otherwise the process ran and exited with the
given success flag. -/
inductive ToolStatus where
  | statusErr
  | exited (success : Bool)
deriving DecidableEq

/-- The external effects `save_graph_png` performs, abstracted: the
combined result of `File::create` + `write_all` for the DOT file, and the
outcome of running the Graphviz `dot` command. -/
structure RenderEnv where
  writeDotFile : IoResult Unit
  runGraphviz : ToolStatus

/-- `save_graph_png` (src/visualizations.rs:26-44), control flow over the
abstracted effects: file-write errors and a failure to spawn `dot` are
propagated by `?` as `io::Result` errors (reported to the caller), but a
`dot` process that runs and exits unsuccessfully hits
`panic!("Graphviz failed")` — a fatal crash, not an error return. -/
def save_graph_png (env : RenderEnv) : RustOutcome (IoResult Unit) :=
  match env.writeDotFile with
  | .err => .ok .err
  | .ok _ =>
    match env.runGraphviz with
    | .statusErr => .ok .err
    | .exited true => .ok (.ok ())
    | .exited false => .panicked

/-- C9 (divergence witness): when the external `dot` process runs but
exits with a non-zero status, `save_graph_png` panics (a fatal crash, not
a reportable error) — while a missing executable IS surfaced as an
`io::Result` error.  The first conjunct contradicts the claim's "does not
crash fatally" for the non-zero-exit case. -/
theorem C9_nonzero_exit_panics_spawn_error_reported :
    save_graph_png { writeDotFile := .ok (), runGraphviz := .exited false }
        = RustOutcome.panicked ∧
    save_graph_png { writeDotFile := .ok (), runGraphviz := .statusErr }
        = RustOutcome.ok IoResult.err :=
  ⟨rfl, rfl⟩

/- ### Lineage arena (src/tree.rs) -/

/-- `Node<N, L>` (src/tree.rs:70-76) at the instantiation the simulation
uses (`N = usize`, `L = usize`); branch lengths (`f64`) are modelled as
`ℚ`. -/
structure RNode where
  data : ℕ
  label : ℕ
  parent : Option ℕ
  children : List (ℕ × ℚ)
deriving DecidableEq

/-- `Node::root(data, label)` (src/tree.rs:79-86). -/
def Node.root (data label : ℕ) : RNode :=
  { data := data, label := label, parent := none, children := [] }

/-- `Phylogeny<N, L>` (src/tree.rs:101-106). -/
structure Phylogeny where
  nodes : List RNode
  root_length : ℚ
  root : ℕ
deriving DecidableEq

/-- `Phylogeny::new(root, root_length)` (src/tree.rs:182-189). -/
def Phylogeny.new (root : RNode) (root_length : ℚ) : Phylogeny :=
  { nodes := [root], root_length := root_length, root := 0 }

/-- Junk node returned by out-of-range arena reads in this model (the Rust
indexing panics instead; theorems below keep indices in range). -/
def dummyNode : RNode := Node.root 0 0

/-- The node at index `i`. -/
def Phylogeny.node (t : Phylogeny) (i : ℕ) : RNode := t.nodes.getD i dummyNode

/-- The children list of the node at index `i`. -/
def Phylogeny.childrenAt (t : Phylogeny) (i : ℕ) : List (ℕ × ℚ) := (t.node i).children

/-- `Phylogeny::add_child(parent, data, label, dist)` (src/tree.rs:203-215):
`id = nodes.len()`; the new node is pushed FIRST, and only then is
`(id, dist)` appended to `self.nodes[parent].children`.  That final
indexing is the only failure point: it panics (modelled `none`) iff
`parent >` the pre-call length — a call with `parent` equal to the
pre-call length indexes the node just pushed and succeeds. -/
def Phylogeny.add_child (t : Phylogeny) (parent data label : ℕ) (dist : ℚ) :
    Option (Phylogeny × ℕ) :=
  let id := t.nodes.length
  let pushed := t.nodes ++ [{ data := data, label := label, parent := some parent, children := [] }]
  if parent < pushed.length then
    let pn := pushed.getD parent dummyNode
    some ({ t with nodes := pushed.set parent { pn with children := pn.children ++ [(id, dist)] } },
          id)
  else none

/-- `Phylogeny::leaves()` (src/tree.rs:191-200): indices of childless
nodes, in arena order (`enumerate` + `filter_map`). -/
def Phylogeny.leaves (t : Phylogeny) : List ℕ :=
  t.nodes.enum.filterMap (fun p => if p.2.children.isEmpty then some p.1 else none)

/-- `Phylogeny::edges()` (src/tree.rs:236-245): for each node in arena
order, one `(parent, child, length)` triple per child in insertion
order. -/
def Phylogeny.edges (t : Phylogeny) : List (ℕ × ℕ × ℚ) :=
  t.nodes.enum.flatMap (fun p => p.2.children.map (fun cd => (p.1, cd.1, cd.2)))

/-- Total number of child slots over all nodes. -/
def Phylogeny.totalChildren (t : Phylogeny) : ℕ :=
  (t.nodes.map (fun nd => nd.children.length)).sum

/-- How many times index `c` occurs as a child across all nodes. -/
def Phylogeny.childCount (t : Phylogeny) (c : ℕ) : ℕ :=
  (t.nodes.map (fun nd => nd.children.countP (fun cd => cd.1 = c))).sum

/- ### List helper lemmas for the arena -/

theorem getD_set {α : Type} (l : List α) (k : ℕ) (x : α) (i : ℕ) (d : α) :
    (l.set k x).getD i d = if k = i ∧ k < l.length then x else l.getD i d := by
  rcases Nat.lt_or_ge i l.length with hi | hi
  · rw [List.getD_eq_getElem _ _ (by simpa using hi), List.getElem_set,
      List.getD_eq_getElem _ _ hi]
    by_cases h : k = i
    · rw [if_pos h, if_pos ⟨h, by omega⟩]
    · rw [if_neg h, if_neg (fun hc => h hc.1)]
  · rw [List.getD_eq_default _ _ (by simpa using hi), List.getD_eq_default _ _ hi]
    by_cases h : k = i ∧ k < l.length
    · omega
    · rw [if_neg h]

theorem getD_append_single {α : Type} :
    ∀ (l : List α) (b : α) (i : ℕ) (d : α),
      (l ++ [b]).getD i d = if i < l.length then l.getD i d else if i = l.length then b else d
  | [], b, 0, d => rfl
  | [], b, i + 1, d => by simp [List.getD]
  | a :: l, b, 0, d => by simp
  | a :: l, b, i + 1, d => by
      simp only [List.cons_append, List.getD_cons_succ, getD_append_single l b i d,
        List.length_cons]
      by_cases h1 : i < l.length
      · rw [if_pos h1, if_pos (show i + 1 < l.length + 1 by omega)]
      · rw [if_neg h1, if_neg (show ¬i + 1 < l.length + 1 by omega)]
        by_cases h2 : i = l.length
        · rw [if_pos h2, if_pos (show i + 1 = l.length + 1 by omega)]
        · rw [if_neg h2, if_neg (show ¬i + 1 = l.length + 1 by omega)]

theorem sumMap_set {α : Type} (f : α → ℕ) :
    ∀ (l : List α) (k : ℕ) (x d : α), k < l.length →
      ((l.set k x).map f).sum + f (l.getD k d) = (l.map f).sum + f x
  | a :: l, 0, x, d, _ => by
      simp only [List.set_cons_zero, List.map_cons, List.sum_cons, List.getD_cons_zero]
      omega
  | a :: l, k + 1, x, d, h => by
      have ih := sumMap_set f l k x d (by simpa using h)
      simp only [List.set_cons_succ, List.map_cons, List.sum_cons, List.getD_cons_succ]
      omega

theorem sumMap_append_single {α : Type} (f : α → ℕ) (l : List α) (b : α) :
    ((l ++ [b]).map f).sum = (l.map f).sum + f b := by
  rw [List.map_append, List.sum_append]
  simp

theorem countP_eq_sumMap {α : Type} (p : α → Bool) :
    ∀ l : List α, l.countP p = (l.map (fun a => if p a then 1 else 0)).sum
  | [] => rfl
  | a :: l => by
      simp only [List.countP_cons, List.map_cons, List.sum_cons, countP_eq_sumMap p l]
      by_cases h : p a
      · simp [h]
        omega
      · simp [h]

theorem length_filterMap_enumFrom {α : Type} (p : α → Bool) :
    ∀ (l : List α) (k : ℕ),
      ((List.enumFrom k l).filterMap (fun x => if p x.2 then some x.1 else none)).length
        = l.countP p
  | [], _ => rfl
  | a :: l, k => by
      simp only [List.enumFrom_cons, List.filterMap_cons, List.countP_cons]
      by_cases h : p a
      · simp [h, length_filterMap_enumFrom p l (k + 1)]
      · simp [h, length_filterMap_enumFrom p l (k + 1)]

theorem map_snd_enumFrom {α β : Type} (h : α → β) :
    ∀ (l : List α) (k : ℕ), (List.enumFrom k l).map (fun x => h x.2) = l.map h
  | [], _ => rfl
  | a :: l, k => by
      simp only [List.enumFrom_cons, List.map_cons, map_snd_enumFrom h l (k + 1)]

/-- `edges()` yields one triple per child slot. -/
theorem edges_length (t : Phylogeny) : t.edges.length = t.totalChildren := by
  unfold Phylogeny.edges Phylogeny.totalChildren
  rw [List.length_flatMap, List.enum_eq_enumFrom]
  have h1 : (List.enumFrom 0 t.nodes).map
      (List.length ∘ fun p => p.2.children.map (fun cd => (p.1, cd.1, cd.2)))
      = (List.enumFrom 0 t.nodes).map (fun x => x.2.children.length) := by
    apply List.map_congr_left
    intro x _
    simp
  have h2 := map_snd_enumFrom (fun nd => nd.children.length) t.nodes 0
  rw [h1, h2]

/-- Occurrences of `c` as a child in `edges()` equal `childCount c`. -/
theorem edges_countP (t : Phylogeny) (c : ℕ) :
    t.edges.countP (fun e => e.2.1 = c) = t.childCount c := by
  unfold Phylogeny.edges Phylogeny.childCount
  rw [List.countP_flatMap, List.enum_eq_enumFrom]
  have h1 : (List.enumFrom 0 t.nodes).map
      (List.countP (fun e => e.2.1 = c) ∘ fun p => p.2.children.map (fun cd => (p.1, cd.1, cd.2)))
      = (List.enumFrom 0 t.nodes).map
        (fun x => x.2.children.countP (fun cd => cd.1 = c)) := by
    apply List.map_congr_left
    intro x _
    simp only [Function.comp_apply, List.countP_map]
    rfl
  have h2 := map_snd_enumFrom (fun nd => nd.children.countP (fun cd => cd.1 = c)) t.nodes 0
  rw [h1, h2]

/-- `leaves()` length equals the number of childless nodes. -/
theorem leaves_length_eq_countP (t : Phylogeny) :
    t.leaves.length = t.nodes.countP (fun nd => nd.children.isEmpty) := by
  unfold Phylogeny.leaves
  rw [List.enum_eq_enumFrom]
  exact length_filterMap_enumFrom (fun nd => nd.children.isEmpty) t.nodes 0

/- ### add_child: characterization -/

theorem add_child_spec (t : Phylogeny) (parent data label : ℕ) (dist : ℚ)
    (h : parent ≤ t.nodes.length) :
    ∃ t', Phylogeny.add_child t parent data label dist = some (t', t.nodes.length) ∧
      t'.nodes.length = t.nodes.length + 1 ∧
      (∀ i, t'.childrenAt i
          = if i = parent then t.childrenAt parent ++ [(t.nodes.length, dist)]
            else t.childrenAt i) ∧
      (∀ i, (t'.node i).parent
          = if i = t.nodes.length then some parent else (t.node i).parent) := by
  set nw : RNode := { data := data, label := label, parent := some parent, children := [] }
    with hnw
  set pushed : List RNode := t.nodes ++ [nw] with hpushed
  have hplen : pushed.length = t.nodes.length + 1 := by simp [hpushed]
  have hlt : parent < pushed.length := by omega
  have hpn : pushed.getD parent dummyNode
      = if parent = t.nodes.length then nw else t.node parent := by
    rw [hpushed, getD_append_single]
    rcases Nat.lt_or_ge parent t.nodes.length with hp | hp
    · rw [if_pos hp, if_neg (by omega)]
      rfl
    · have hpe : parent = t.nodes.length := by omega
      rw [if_neg (by omega), if_pos hpe, if_pos hpe]
  have hpnc : (pushed.getD parent dummyNode).children = t.childrenAt parent := by
    rw [hpn]
    rcases Nat.lt_or_ge parent t.nodes.length with hp | hp
    · rw [if_neg (by omega)]
      rfl
    · have hpe : parent = t.nodes.length := by omega
      rw [if_pos hpe]
      show ([] : List (ℕ × ℚ)) = t.childrenAt parent
      unfold Phylogeny.childrenAt Phylogeny.node
      rw [List.getD_eq_default _ _ (by omega)]
      rfl
  refine ⟨{ t with nodes := pushed.set parent { pushed.getD parent dummyNode with
      children := (pushed.getD parent dummyNode).children ++ [(t.nodes.length, dist)] } },
    ?_, ?_, ?_, ?_⟩
  · unfold Phylogeny.add_child
    rw [if_pos (by simpa [hpushed] using hlt)]
  · simp [hpushed]
  · intro i
    show ((pushed.set parent { pushed.getD parent dummyNode with
        children := (pushed.getD parent dummyNode).children
          ++ [(t.nodes.length, dist)] }).getD i dummyNode).children = _
    rw [getD_set]
    by_cases hip : i = parent
    · rw [if_pos ⟨hip.symm, hlt⟩, if_pos hip]
      show (pushed.getD parent dummyNode).children ++ [(t.nodes.length, dist)] = _
      rw [hpnc]
    · rw [if_neg (fun hc => hip hc.1.symm), if_neg hip, hpushed, getD_append_single]
      rcases Nat.lt_or_ge i t.nodes.length with hi | hi
      · rw [if_pos hi]
        rfl
      · rw [if_neg (by omega)]
        by_cases hie : i = t.nodes.length
        · rw [if_pos hie]
          show ([] : List (ℕ × ℚ)) = t.childrenAt i
          unfold Phylogeny.childrenAt Phylogeny.node
          rw [List.getD_eq_default _ _ (by omega)]
          rfl
        · rw [if_neg hie]
          show dummyNode.children = t.childrenAt i
          unfold Phylogeny.childrenAt Phylogeny.node
          rw [List.getD_eq_default _ _ (by omega)]
  · intro i
    show ((pushed.set parent { pushed.getD parent dummyNode with
        children := (pushed.getD parent dummyNode).children
          ++ [(t.nodes.length, dist)] }).getD i dummyNode).parent = _
    rw [getD_set]
    by_cases hip : i = parent
    · rw [if_pos ⟨hip.symm, hlt⟩]
      show (pushed.getD parent dummyNode).parent = _
      rw [hpn]
      by_cases hie : i = t.nodes.length
      · rw [if_pos (show parent = t.nodes.length by omega), if_pos hie]
      · rw [if_neg (show ¬parent = t.nodes.length by omega), if_neg hie, hip]
    · rw [if_neg (fun hc => hip hc.1.symm), hpushed, getD_append_single]
      rcases Nat.lt_or_ge i t.nodes.length with hi | hi
      · rw [if_pos hi, if_neg (by omega)]
        rfl
      · rw [if_neg (by omega)]
        by_cases hie : i = t.nodes.length
        · rw [if_pos hie, if_pos hie]
        · rw [if_neg hie, if_neg hie]
          show dummyNode.parent = (t.node i).parent
          unfold Phylogeny.node
          rw [List.getD_eq_default _ _ (by omega)]

/-- Effect of a (normal, in-range parent) `add_child` on any additive node
measure `f`: the parent's measure is replaced by that of the parent with
the new child appended, and the fresh childless node's measure is added. -/
theorem add_child_measure (f : RNode → ℕ) (t : Phylogeny) (parent data label : ℕ) (dist : ℚ)
    (t' : Phylogeny) (id : ℕ) (hp : parent < t.nodes.length)
    (he : Phylogeny.add_child t parent data label dist = some (t', id)) :
    (t'.nodes.map f).sum + f (t.node parent)
      = (t.nodes.map f).sum
        + f { data := data, label := label, parent := some parent, children := [] }
        + f { t.node parent with
              children := (t.node parent).children ++ [(t.nodes.length, dist)] } := by
  have hgd : (t.nodes ++ [({ data := data, label := label, parent := some parent, children := [] } : RNode)]).getD parent dummyNode = t.node parent := by
    rw [getD_append_single, if_pos hp]
    rfl
  simp only [Phylogeny.add_child] at he
  split at he
  · rw [Option.some.injEq, Prod.mk.injEq] at he
    obtain ⟨h1, h2⟩ := he
    subst h1
    have key := sumMap_set f
      (t.nodes ++ [({ data := data, label := label, parent := some parent, children := [] } : RNode)])
      parent
      { t.node parent with children := (t.node parent).children ++ [(t.nodes.length, dist)] }
      dummyNode (by simp only [List.length_append, List.length_cons, List.length_nil]; omega)
    rw [hgd] at key
    rw [sumMap_append_single] at key
    simp only [hgd] at key ⊢
    omega
  · simp at he

/-- The arena tree invariant: every child reference points strictly upward
(child index greater than the node's own index) and in range, and every
parent back-reference points strictly downward.  Since every child index
strictly exceeds its parent's index, the parent/child relation is acyclic
and the arena is a tree. -/
def WellFormed (t : Phylogeny) : Prop :=
  ∀ i, (∀ cd ∈ t.childrenAt i, i < cd.1 ∧ cd.1 < t.nodes.length) ∧
       (∀ q, (t.node i).parent = some q → q < i)

/-- C10: `add_child` pushes the new node into the arena before linking it
into the parent's children list.  For a call with `parent` strictly below
the pre-call node count, the returned child index strictly exceeds the
parent's index and the tree invariant is preserved; but a call with
`parent` EQUAL to the pre-call node count does not fail — it succeeds and
creates a node that is its own parent and its own child. -/
theorem C10_add_child_pushes_then_links :
    (∀ (t : Phylogeny) (parent data label : ℕ) (dist : ℚ) (t2 : Phylogeny) (id : ℕ),
      parent < t.nodes.length →
      Phylogeny.add_child t parent data label dist = some (t2, id) →
      parent < id ∧ (WellFormed t → WellFormed t2)) ∧
    (∀ (t : Phylogeny) (data label : ℕ) (dist : ℚ),
      ∃ t2, Phylogeny.add_child t t.nodes.length data label dist = some (t2, t.nodes.length) ∧
        (t2.node t.nodes.length).parent = some t.nodes.length ∧
        (t.nodes.length, dist) ∈ t2.childrenAt t.nodes.length) := by
  constructor
  · intro t parent data label dist t2 id hp he
    obtain ⟨t', he', hlen, hch, hpar⟩ := add_child_spec t parent data label dist (le_of_lt hp)
    have heq := he'.symm.trans he
    rw [Option.some.injEq, Prod.mk.injEq] at heq
    obtain ⟨h1, h2⟩ := heq
    subst h1
    subst h2
    refine ⟨hp, fun hWF i => ⟨?_, ?_⟩⟩
    · intro cd hcd
      rw [hch i] at hcd
      by_cases hip : i = parent
      · rw [if_pos hip] at hcd
        rcases List.mem_append.mp hcd with hold | hnew
        · have := (hWF parent).1 cd hold
          subst hip
          omega
        · have : cd = (t.nodes.length, dist) := List.mem_singleton.mp hnew
          subst this
          subst hip
          simp only
          omega
      · rw [if_neg hip] at hcd
        have := (hWF i).1 cd hcd
        omega
    · intro q hq
      rw [hpar i] at hq
      by_cases hie : i = t.nodes.length
      · rw [if_pos hie] at hq
        have : parent = q := by injection hq
        omega
      · rw [if_neg hie] at hq
        exact (hWF i).2 q hq
  · intro t data label dist
    obtain ⟨t', he', hlen, hch, hpar⟩ :=
      add_child_spec t t.nodes.length data label dist (le_refl _)
    refine ⟨t', he', ?_, ?_⟩
    · rw [hpar t.nodes.length, if_pos rfl]
    · rw [hch t.nodes.length, if_pos rfl]
      exact List.mem_append.mpr (Or.inr (List.mem_singleton.mpr rfl))

def phyW0 : Phylogeny := Phylogeny.new (Node.root 0 0) 1

def phyW1 : Phylogeny :=
  { nodes := [{ data := 0, label := 0, parent := none, children := [(1, 1)] },
              { data := 1, label := 1, parent := some 0, children := [] }],
    root_length := 1, root := 0 }

theorem C10_witness : 0 < 1 ∧ (WellFormed phyW0 → WellFormed phyW1) :=
  C10_add_child_pushes_then_links.1 phyW0 0 1 1 1 phyW1 1 (by decide) (by rfl)

/- ### Simulation driver (src/simulations.rs) -/

/-- Abstract interface to the external crates the driver uses: `rand`'s
seeded `StdRng` (`seedFrom` models `StdRng::seed_from_u64`; the state type
`σ` is abstract), `rand_distr`'s `Exp(lambda)` sampling (`expSample`),
`rand_distr`'s `WeightedIndex::new(&row).unwrap().sample(rng)`
(`weightedSample`), and the float `exp` used by
`rescale_from_frequencies` (`fexp`).  All are deterministic functions of
their inputs — exactly what the crates provide for a fixed seed. -/
structure SimEnv (σ : Type) where
  seedFrom : ℕ → σ
  expSample : ℚ → σ → ℚ × σ
  weightedSample : List ℚ → σ → ℕ × σ
  fexp : ℚ → ℚ

/-- The index contract of `WeightedIndex` sampling: on a nonempty weight
row the sampled index is in range. -/
def EnvOk {σ : Type} (env : SimEnv σ) : Prop :=
  ∀ w s, w ≠ [] → (env.weightedSample w s).1 < w.length

/-- `PMatrix::sample(i, rng)` (src/pmatrix.rs:95-100): extract row `i` of
the matrix and sample an index from the external weighted distribution
over it. -/
def PMatrix.sample {σ : Type} (env : SimEnv σ) (p : Mat) (i : ℕ) (rng : σ) : ℕ × σ :=
  env.weightedSample (p.getD i []) rng

/-- `Simulations::BRANCHING` (src/simulations.rs:14). -/
def BRANCHING : ℕ := 2

/-- Mutable state of one generation's inner loop over the current leaves
(src/simulations.rs:52-65). -/
structure GenAcc (σ : Type) where
  tree : Phylogeny
  idx : ℕ
  new_counts : List ℕ
  new_leaves : List (ℕ × ℕ)
  migration_matrix : List (List ℕ)
  rng : σ

/-- `migration_matrix[[a, b]] += 1` (in range in every reachable use;
out-of-range writes, which would panic in Rust, are no-ops here and are
excluded by the `EnvOk` hypotheses of the theorems). -/
def tallyInc (m : List (List ℕ)) (a b : ℕ) : List (List ℕ) :=
  m.set a ((m.getD a []).set b ((m.getD a []).getD b 0 + 1))

/-- The body of the `for _ in 0..Self::BRANCHING` loop
(src/simulations.rs:55-64), in source order: sample the destination site
from row `label`, bump `new_counts[next_label]`, draw a branch length,
`add_child(leaf, idx, next_label, bl)` (a panic propagates as `none`),
push `(idx, next_label)`, bump the tally at `(label, next_label)`,
increment `idx`. -/
def childStep {σ : Type} (env : SimEnv σ) (lambda : ℚ) (pm : Mat) (leaf label : ℕ)
    (a : GenAcc σ) : Option (GenAcc σ) :=
  let s1 := PMatrix.sample env pm label a.rng
  let next_label := s1.1
  let counts := a.new_counts.set next_label (a.new_counts.getD next_label 0 + 1)
  let s2 := env.expSample lambda s1.2
  match a.tree.add_child leaf a.idx next_label s2.1 with
  | none => none
  | some tid =>
      some { tree := tid.1, idx := a.idx + 1, new_counts := counts,
             new_leaves := a.new_leaves ++ [(a.idx, next_label)],
             migration_matrix := tallyInc a.migration_matrix label next_label,
             rng := s2.2 }

/-- `for _ in 0..Self::BRANCHING { ... }`, by fuel recursion on the
remaining iteration count. -/
def branchLoop {σ : Type} (env : SimEnv σ) (lambda : ℚ) (pm : Mat) (leaf label : ℕ) :
    ℕ → GenAcc σ → Option (GenAcc σ)
  | 0, a => some a
  | k + 1, a =>
      match childStep env lambda pm leaf label a with
      | none => none
      | some a' => branchLoop env lambda pm leaf label k a'

/-- `for &(leaf, label) in &leaves { ... }` (src/simulations.rs:54). -/
def leavesLoop {σ : Type} (env : SimEnv σ) (lambda : ℚ) (pm : Mat) :
    List (ℕ × ℕ) → GenAcc σ → Option (GenAcc σ)
  | [], a => some a
  | lp :: rest, a =>
      match branchLoop env lambda pm lp.1 lp.2 BRANCHING a with
      | none => none
      | some a' => leavesLoop env lambda pm rest a'

/-- The per-generation mutable state of `yule_migrations`. -/
structure SimState (σ : Type) where
  pmatrix : Mat
  tree : Phylogeny
  idx : ℕ
  leaves : List (ℕ × ℕ)
  frequencies : List ℚ
  migration_matrix : List (List ℕ)
  rng : σ

/-- One iteration of `for _ in 0..g` (src/simulations.rs:49-71): rebalance
the matrix from the current frequencies, process every current leaf, then
recompute the frequencies from the new counts and replace the leaf
list. -/
def genStep {σ : Type} (env : SimEnv σ) (lambda : ℚ) (n : ℕ) (st : SimState σ) :
    Option (SimState σ) :=
  let pm := PMatrix.rescale_from_frequencies env.fexp st.pmatrix st.frequencies
  match leavesLoop env lambda pm st.leaves
      { tree := st.tree, idx := st.idx, new_counts := List.replicate n 0, new_leaves := [],
        migration_matrix := st.migration_matrix, rng := st.rng } with
  | none => none
  | some a =>
      some { pmatrix := pm, tree := a.tree, idx := a.idx, leaves := a.new_leaves,
             frequencies := a.new_counts.map (fun c : ℕ => (c : ℚ) / (a.new_leaves.length : ℚ)),
             migration_matrix := a.migration_matrix, rng := a.rng }

/-- `for _ in 0..g`, by fuel recursion on the remaining generations. -/
def genLoop {σ : Type} (env : SimEnv σ) (lambda : ℚ) (n : ℕ) :
    ℕ → SimState σ → Option (SimState σ)
  | 0, st => some st
  | g + 1, st =>
      match genStep env lambda n st with
      | none => none
      | some st' => genLoop env lambda n g st'

/-- `yule_migrations(lambda, g, n, m_prob, seed)` (src/simulations.rs:27-74).
`Exp::new(lambda).unwrap()` panics for `lambda ≤ 0` (`rand_distr` rejects
a non-positive rate) and `frequencies[0] = 1.0` panics for `n = 0`; both
are modelled as `none`.  Otherwise: seed the generator, zero the tally,
build the initial matrix, draw the root branch length, and run the
generation loop; the result is the final arena and tally matrix. -/
def yule_migrations {σ : Type} (env : SimEnv σ) (lambda : ℚ) (g n : ℕ) (m_prob : ℚ)
    (seed : ℕ) : Option (Phylogeny × List (List ℕ)) :=
  if lambda ≤ 0 then none
  else if n = 0 then none
  else
    let rng0 := env.seedFrom seed
    let migration_matrix : List (List ℕ) := List.replicate n (List.replicate n 0)
    let pmatrix := PMatrix.new_with_initial_conditions n m_prob
    let root := Node.root 0 0
    let s0 := env.expSample lambda rng0
    let tree := Phylogeny.new root s0.1
    let frequencies := (List.replicate n (0 : ℚ)).set 0 1
    let st0 : SimState σ :=
      { pmatrix := pmatrix, tree := tree, idx := 1, leaves := [(0, 0)],
        frequencies := frequencies, migration_matrix := migration_matrix, rng := s0.2 }
    match genLoop env lambda n g st0 with
    | none => none
    | some st => some (st.tree, st.migration_matrix)

/-- C1: for a fixed environment (the deterministic models of the `rand`
crates) and fixed parameters, two runs of `yule_migrations` with equal
seeds return identical results — the same arena (all nodes with their
payloads, labels, parents, children and branch lengths, plus the root
length) and the same tally matrix.  The embedding is a pure function of
`(lambda, g, n, m_prob, seed)`, mirroring the source, whose only state is
the `StdRng` seeded from `seed` and consumed strictly sequentially. -/
theorem C1_determinism {σ : Type} (env : SimEnv σ) (lambda : ℚ) (g n : ℕ) (m_prob : ℚ)
    (seed1 seed2 : ℕ) (h : seed1 = seed2) :
    yule_migrations env lambda g n m_prob seed1 = yule_migrations env lambda g n m_prob seed2 := by
  rw [h]

/-- A concrete environment instance: a step-counter state, constant draws. -/
def toyEnv : SimEnv ℕ :=
  { seedFrom := fun s => s,
    expSample := fun _ s => (1, s + 1),
    weightedSample := fun _ s => (0, s + 1),
    fexp := fun _ => 1 }

theorem toyEnvOk : EnvOk toyEnv := by
  intro w s hw
  simpa using List.length_pos.mpr hw

theorem C1_witness :
    yule_migrations toyEnv 1 2 2 (1 / 2) 42 = yule_migrations toyEnv 1 2 2 (1 / 2) 42 :=
  C1_determinism toyEnv 1 2 2 (1 / 2) 42 42 rfl

/- ### Shape and tally bookkeeping -/

/-- `p` is an `n × n` matrix. -/
def matShape (n : ℕ) (p : Mat) : Prop :=
  p.length = n ∧ ∀ i, i < n → (p.getD i []).length = n

/-- The tally (`Array2<i32>`) is an `n × n` matrix. -/
def tallyShape (n : ℕ) (m : List (List ℕ)) : Prop :=
  m.length = n ∧ ∀ i, i < n → (m.getD i []).length = n

/-- Sum of all entries of the tally matrix. -/
def tallySum (m : List (List ℕ)) : ℕ := (m.map List.sum).sum

theorem rescaleLoop_lengths (p : Mat) :
    ∀ (k : ℕ) (r c : List ℚ), r.length = p.length → c.length = p.length →
      (rescaleLoop p k r c).1.length = p.length ∧ (rescaleLoop p k r c).2.length = p.length
  | 0, _, _, hr, hc => ⟨hr, hc⟩
  | k + 1, r, c, _, _ => by
      apply rescaleLoop_lengths p k
      · simp [matVec]
      · simp [matTVec]

theorem rescale_shape (n : ℕ) (p : Mat) (hp : matShape n p) (k : ℕ) :
    matShape n (PMatrix.rescale p k) := by
  obtain ⟨hlen, hrow⟩ := hp
  obtain ⟨hr, hc⟩ := rescaleLoop_lengths p k (List.replicate p.length 1)
    (List.replicate p.length 1) (by simp) (by simp)
  constructor
  · simp only [PMatrix.rescale]
    rw [List.length_zipWith, hr, hlen]
    exact Nat.min_self n
  · intro i hi
    simp only [PMatrix.rescale]
    rw [getD_zipWith_lt _ _ _ [] 0 [] (by omega) (by omega)]
    rw [List.length_zipWith, hrow i hi, hc, hlen]
    exact Nat.min_self n

theorem diag_mul_shape (n : ℕ) (p : Mat) (v : List ℚ) (hp : matShape n p) (hv : v.length = n) :
    matShape n (PMatrix.diag_mul p v) := by
  obtain ⟨hlen, hrow⟩ := hp
  constructor
  · simp [PMatrix.diag_mul, hlen]
  · intro i hi
    simp only [PMatrix.diag_mul]
    rw [getD_map_lt _ p [] _ (by omega)]
    rw [List.length_zipWith, hrow i hi, hv]
    exact Nat.min_self n

theorem rescale_from_frequencies_shape (n : ℕ) (fexp : ℚ → ℚ) (p : Mat) (freqs : List ℚ)
    (hp : matShape n p) (hf : freqs.length = n) :
    matShape n (PMatrix.rescale_from_frequencies fexp p freqs) := by
  simp only [PMatrix.rescale_from_frequencies]
  apply rescale_shape
  apply diag_mul_shape n p _ hp
  simp [hf]

theorem sum_set_add_one : ∀ (l : List ℕ) (b : ℕ), b < l.length →
    (l.set b (l.getD b 0 + 1)).sum = l.sum + 1
  | x :: l, 0, _ => by
      simp only [List.getD_cons_zero, List.set_cons_zero, List.sum_cons]
      omega
  | x :: l, b + 1, h => by
      have ih := sum_set_add_one l b (by simpa using h)
      simp only [List.set_cons_succ, List.getD_cons_succ, List.sum_cons]
      omega

theorem tallyInc_shape (n : ℕ) (m : List (List ℕ)) (a b : ℕ) (hm : tallyShape n m)
    (ha : a < n) : tallyShape n (tallyInc m a b) := by
  obtain ⟨h1, h2⟩ := hm
  constructor
  · simp [tallyInc, h1]
  · intro i hi
    simp only [tallyInc]
    rw [getD_set]
    by_cases hai : a = i ∧ a < m.length
    · rw [if_pos hai, List.length_set]
      exact h2 a ha
    · rw [if_neg hai]
      exact h2 i hi

theorem tallyInc_sum (n : ℕ) (m : List (List ℕ)) (a b : ℕ) (hm : tallyShape n m)
    (ha : a < n) (hb : b < n) : tallySum (tallyInc m a b) = tallySum m + 1 := by
  obtain ⟨h1, h2⟩ := hm
  have hma : a < m.length := by omega
  have key := sumMap_set List.sum m a ((m.getD a []).set b ((m.getD a []).getD b 0 + 1)) [] hma
  have hrow : ((m.getD a []).set b ((m.getD a []).getD b 0 + 1)).sum = (m.getD a []).sum + 1 :=
    sum_set_add_one _ b (by rw [h2 a ha]; omega)
  unfold tallySum tallyInc
  unfold tallySum at key
  omega

/- ### add_child corollaries -/

theorem add_child_totalChildren (t : Phylogeny) (parent data label id : ℕ) (dist : ℚ)
    (t' : Phylogeny) (hp : parent < t.nodes.length)
    (he : Phylogeny.add_child t parent data label dist = some (t', id)) :
    t'.totalChildren = t.totalChildren + 1 := by
  have key := add_child_measure (fun nd => nd.children.length) t parent data label dist t' id hp he
  simp only [List.length_append, List.length_cons, List.length_nil] at key
  unfold Phylogeny.totalChildren
  omega

theorem add_child_childCount (t : Phylogeny) (parent data label id : ℕ) (dist : ℚ)
    (t' : Phylogeny) (c : ℕ) (hp : parent < t.nodes.length)
    (he : Phylogeny.add_child t parent data label dist = some (t', id)) :
    t'.childCount c = t.childCount c + if t.nodes.length = c then 1 else 0 := by
  have key := add_child_measure (fun nd => nd.children.countP (fun cd => cd.1 = c))
    t parent data label dist t' id hp he
  simp only [List.countP_append, List.countP_cons, List.countP_nil] at key
  unfold Phylogeny.childCount
  by_cases hc : t.nodes.length = c
  · simp [hc] at key ⊢
    omega
  · simp [hc] at key ⊢
    omega

/- ### Loop invariants of the simulation -/

/-- Invariant of the generation loop, indexed by `s`, the arena index of
the first leaf of the current generation (after `k` completed generations
`s = 2^k - 1`): the current generation consists of the `s + 1` leaves
`s, s+1, ..., 2s`, the arena has `2s + 1` nodes of which exactly the
nodes from `s` on are childless, every index `1..2s` occurs as a child
exactly once, and the tally total equals the `2s` edges created. -/
structure SimInv {σ : Type} (n s : ℕ) (st : SimState σ) : Prop where
  idx_eq : st.idx = 2 * s + 1
  len_eq : st.tree.nodes.length = 2 * s + 1
  leaves_idx : st.leaves.map Prod.fst = List.range' s (s + 1)
  leaves_lab : ∀ p ∈ st.leaves, p.2 < n
  childless : ∀ i, st.tree.childrenAt i = [] ↔ s ≤ i
  total : st.tree.totalChildren = 2 * s
  ccount : ∀ c, st.tree.childCount c = if 1 ≤ c ∧ c < 2 * s + 1 then 1 else 0
  tshape : tallyShape n st.migration_matrix
  tsum : tallySum st.migration_matrix = 2 * s
  pshape : matShape n st.pmatrix
  fshape : st.frequencies.length = n

/-- Invariant of the inner loop over the current generation's leaves,
after `j` of them have been processed. -/
structure InnerInv {σ : Type} (n s j : ℕ) (a : GenAcc σ) : Prop where
  idx_eq : a.idx = 2 * s + 1 + 2 * j
  len_eq : a.tree.nodes.length = 2 * s + 1 + 2 * j
  newl_idx : a.new_leaves.map Prod.fst = List.range' (2 * s + 1) (2 * j)
  newl_lab : ∀ p ∈ a.new_leaves, p.2 < n
  childless : ∀ i, a.tree.childrenAt i = [] ↔ s + j ≤ i
  total : a.tree.totalChildren = 2 * s + 2 * j
  ccount : ∀ c, a.tree.childCount c = if 1 ≤ c ∧ c < 2 * s + 1 + 2 * j then 1 else 0
  tshape : tallyShape n a.migration_matrix
  tsum : tallySum a.migration_matrix = 2 * s + 2 * j
  cshape : a.new_counts.length = n

/-- Effect of a single `childStep` from a state whose `idx` equals the
arena size, with an in-range parent: the drawn site is in range and every
component updates as the source dictates. -/
theorem childStep_effect {σ : Type} (env : SimEnv σ) (lambda : ℚ) (pm : Mat) (n leaf label : ℕ)
    (a : GenAcc σ) (hok : EnvOk env) (hn : 0 < n) (hpm : matShape n pm) (hlab : label < n)
    (hleaf : leaf < a.tree.nodes.length) (hidx : a.idx = a.tree.nodes.length) :
    ∃ (nl : ℕ) (bl : ℚ) (rng' : σ) (t' : Phylogeny),
      nl < n ∧
      childStep env lambda pm leaf label a = some
        { tree := t', idx := a.idx + 1,
          new_counts := a.new_counts.set nl (a.new_counts.getD nl 0 + 1),
          new_leaves := a.new_leaves ++ [(a.idx, nl)],
          migration_matrix := tallyInc a.migration_matrix label nl,
          rng := rng' } ∧
      t'.nodes.length = a.tree.nodes.length + 1 ∧
      (∀ i, t'.childrenAt i = if i = leaf then a.tree.childrenAt leaf ++ [(a.idx, bl)]
          else a.tree.childrenAt i) ∧
      t'.totalChildren = a.tree.totalChildren + 1 ∧
      (∀ c, t'.childCount c = a.tree.childCount c + if a.idx = c then 1 else 0) := by
  obtain ⟨t', he', hlen, hch, hpar⟩ := add_child_spec a.tree leaf a.idx
    (PMatrix.sample env pm label a.rng).1
    (env.expSample lambda (PMatrix.sample env pm label a.rng).2).1 (le_of_lt hleaf)
  refine ⟨(PMatrix.sample env pm label a.rng).1,
    (env.expSample lambda (PMatrix.sample env pm label a.rng).2).1,
    (env.expSample lambda (PMatrix.sample env pm label a.rng).2).2,
    t', ?_, ?_, ?_, ?_, ?_, ?_⟩
  · have hrow : (pm.getD label []).length = n := hpm.2 label hlab
    have hne : pm.getD label [] ≠ [] := by
      intro hnil
      rw [hnil] at hrow
      simp at hrow
      omega
    have := hok (pm.getD label []) a.rng hne
    rw [hrow] at this
    exact this
  · simp only [childStep]
    rw [he']
  · exact hlen
  · intro i
    rw [hidx]
    exact hch i
  · exact add_child_totalChildren a.tree leaf a.idx
      (PMatrix.sample env pm label a.rng).1 a.tree.nodes.length
      (env.expSample lambda (PMatrix.sample env pm label a.rng).2).1 t' hleaf he'
  · intro c
    rw [hidx]
    exact add_child_childCount a.tree leaf a.idx
      (PMatrix.sample env pm label a.rng).1 a.tree.nodes.length
      (env.expSample lambda (PMatrix.sample env pm label a.rng).2).1 t' c hleaf he'

theorem range'_snoc2 (s m : ℕ) :
    List.range' s m ++ [s + m] ++ [s + m + 1] = List.range' s (m + 2) := by
  have h1 : List.range' s (m + 2) = List.range' s (m + 1) ++ [s + 1 * (m + 1)] :=
    List.range'_concat s (m + 1)
  have h2 : List.range' s (m + 1) = List.range' s m ++ [s + 1 * m] := List.range'_concat s m
  rw [h1, h2]
  simp [Nat.add_assoc]

/-- Processing one leaf (`BRANCHING = 2` children) advances the inner
invariant from `j` to `j + 1` processed leaves. -/
theorem branch_pair_inv {σ : Type} (env : SimEnv σ) (lambda : ℚ) (pm : Mat) (n s j : ℕ)
    (lab : ℕ) (a : GenAcc σ) (hok : EnvOk env) (hn : 0 < n) (hpm : matShape n pm)
    (hlab : lab < n) (hinv : InnerInv n s j a) :
    ∃ a', branchLoop env lambda pm (s + j) lab BRANCHING a = some a'
      ∧ InnerInv n s (j + 1) a' := by
  have hidx1 : a.idx = a.tree.nodes.length := by rw [hinv.idx_eq, hinv.len_eq]
  have hleaf1 : s + j < a.tree.nodes.length := by
    rw [hinv.len_eq]
    omega
  obtain ⟨nl1, bl1, r1, t1, hnl1, hcs1, hlen1, hch1, htot1, hcc1⟩ :=
    childStep_effect env lambda pm n (s + j) lab a hok hn hpm hlab hleaf1 hidx1
  set a1 : GenAcc σ :=
    { tree := t1, idx := a.idx + 1,
      new_counts := a.new_counts.set nl1 (a.new_counts.getD nl1 0 + 1),
      new_leaves := a.new_leaves ++ [(a.idx, nl1)],
      migration_matrix := tallyInc a.migration_matrix lab nl1, rng := r1 } with ha1
  have hidx2 : a1.idx = a1.tree.nodes.length := by
    show a.idx + 1 = t1.nodes.length
    omega
  have hleaf2 : s + j < a1.tree.nodes.length := by
    show s + j < t1.nodes.length
    omega
  obtain ⟨nl2, bl2, r2, t2, hnl2, hcs2, hlen2, hch2, htot2, hcc2⟩ :=
    childStep_effect env lambda pm n (s + j) lab a1 hok hn hpm hlab hleaf2 hidx2
  have hb_tree : a1.tree = t1 := rfl
  have hb_idx : a1.idx = a.idx + 1 := rfl
  rw [hb_tree] at hlen2 hch2 htot2 hcc2
  rw [hb_idx] at hch2 hcc2
  have hbl : branchLoop env lambda pm (s + j) lab BRANCHING a
      = some { tree := t2, idx := a.idx + 1 + 1,
               new_counts := (a.new_counts.set nl1 (a.new_counts.getD nl1 0 + 1)).set nl2
                 ((a.new_counts.set nl1 (a.new_counts.getD nl1 0 + 1)).getD nl2 0 + 1),
               new_leaves := (a.new_leaves ++ [(a.idx, nl1)]) ++ [(a.idx + 1, nl2)],
               migration_matrix := tallyInc (tallyInc a.migration_matrix lab nl1) lab nl2,
               rng := r2 } := by
    have e1 : branchLoop env lambda pm (s + j) lab BRANCHING a
        = match childStep env lambda pm (s + j) lab a with
          | none => none
          | some x => branchLoop env lambda pm (s + j) lab 1 x := rfl
    rw [e1, hcs1]
    show branchLoop env lambda pm (s + j) lab 1 a1 = _
    have e2 : branchLoop env lambda pm (s + j) lab 1 a1
        = match childStep env lambda pm (s + j) lab a1 with
          | none => none
          | some x => branchLoop env lambda pm (s + j) lab 0 x := rfl
    rw [e2, hcs2]
    rfl
  refine ⟨_, hbl, ?_⟩
  constructor
  · show a.idx + 1 + 1 = 2 * s + 1 + 2 * (j + 1)
    have h := hinv.idx_eq
    omega
  · show t2.nodes.length = 2 * s + 1 + 2 * (j + 1)
    have h := hinv.len_eq
    omega
  · show ((a.new_leaves ++ [(a.idx, nl1)]) ++ [(a.idx + 1, nl2)]).map Prod.fst = _
    simp only [List.map_append, List.map_cons, List.map_nil, hinv.newl_idx, hinv.idx_eq]
    rw [show 2 * (j + 1) = 2 * j + 2 by omega]
    exact range'_snoc2 (2 * s + 1) (2 * j)
  · intro p hp
    rcases List.mem_append.mp hp with hp1 | hp2
    · rcases List.mem_append.mp hp1 with hp3 | hp4
      · exact hinv.newl_lab p hp3
      · rw [List.mem_singleton.mp hp4]
        exact hnl1
    · rw [List.mem_singleton.mp hp2]
      exact hnl2
  · intro i
    show t2.childrenAt i = [] ↔ s + (j + 1) ≤ i
    rw [hch2 i]
    by_cases hij : i = s + j
    · subst hij
      rw [if_pos rfl]
      constructor
      · intro hemp
        simp at hemp
      · intro hle
        exact absurd hle (by omega)
    · rw [if_neg hij, hch1 i, if_neg hij, hinv.childless i]
      omega
  · show t2.totalChildren = 2 * s + 2 * (j + 1)
    have h := hinv.total
    omega
  · intro c
    show t2.childCount c = _
    rw [hcc2 c, hcc1 c, hinv.ccount c, hinv.idx_eq]
    split_ifs <;> omega
  · show tallyShape n (tallyInc (tallyInc a.migration_matrix lab nl1) lab nl2)
    exact tallyInc_shape n _ lab nl2 (tallyInc_shape n _ lab nl1 hinv.tshape hlab) hlab
  · show tallySum (tallyInc (tallyInc a.migration_matrix lab nl1) lab nl2) = 2 * s + 2 * (j + 1)
    have hs1 := tallyInc_sum n a.migration_matrix lab nl1 hinv.tshape hlab hnl1
    have hs2 := tallyInc_sum n (tallyInc a.migration_matrix lab nl1) lab nl2
      (tallyInc_shape n _ lab nl1 hinv.tshape hlab) hlab hnl2
    have h3 := hinv.tsum
    omega
  · show ((a.new_counts.set nl1 (a.new_counts.getD nl1 0 + 1)).set nl2
      ((a.new_counts.set nl1 (a.new_counts.getD nl1 0 + 1)).getD nl2 0 + 1)).length = n
    simp only [List.length_set]
    exact hinv.cshape

/-- Running the inner loop over the remaining leaves, whose arena indices
continue the consecutive block, completes the generation. -/
theorem leavesLoop_inv {σ : Type} (env : SimEnv σ) (lambda : ℚ) (pm : Mat) (n s : ℕ)
    (hok : EnvOk env) (hn : 0 < n) (hpm : matShape n pm) :
    ∀ (L : List (ℕ × ℕ)) (j : ℕ) (a : GenAcc σ),
      L.map Prod.fst = List.range' (s + j) L.length →
      (∀ p ∈ L, p.2 < n) →
      j + L.length = s + 1 →
      InnerInv n s j a →
      ∃ a', leavesLoop env lambda pm L a = some a' ∧ InnerInv n s (s + 1) a'
  | [], j, a, _, _, hlen, hinv => by
      have hj : j = s + 1 := by simpa using hlen
      subst hj
      exact ⟨a, rfl, hinv⟩
  | lp :: rest, j, a, hmap, hlab, hlen, hinv => by
      simp only [List.map_cons, List.length_cons, List.range'_succ] at hmap
      rw [List.cons.injEq] at hmap
      obtain ⟨hlp, hrest⟩ := hmap
      obtain ⟨a1, hb, hinv1⟩ :=
        branch_pair_inv env lambda pm n s j lp.2 a hok hn hpm (hlab lp (by simp)) hinv
      have hrest' : rest.map Prod.fst = List.range' (s + (j + 1)) rest.length := by
        rw [hrest]
        congr 1
      obtain ⟨a', hl, hinv'⟩ := leavesLoop_inv env lambda pm n s hok hn hpm rest (j + 1) a1
        hrest' (fun p hp => hlab p (List.mem_cons_of_mem lp hp)) (by simp at hlen; omega) hinv1
      refine ⟨a', ?_, hinv'⟩
      have e : leavesLoop env lambda pm (lp :: rest) a
          = match branchLoop env lambda pm lp.1 lp.2 BRANCHING a with
            | none => none
            | some x => leavesLoop env lambda pm rest x := rfl
      rw [e, hlp, hb]
      exact hl

/-- One generation step advances the outer invariant from `s` to `2s+1`. -/
theorem genStep_inv {σ : Type} (env : SimEnv σ) (lambda : ℚ) (n s : ℕ) (st : SimState σ)
    (hok : EnvOk env) (hn : 0 < n) (hinv : SimInv n s st) :
    ∃ st', genStep env lambda n st = some st' ∧ SimInv n (2 * s + 1) st' := by
  have hps : matShape n (PMatrix.rescale_from_frequencies env.fexp st.pmatrix st.frequencies) :=
    rescale_from_frequencies_shape n env.fexp st.pmatrix st.frequencies hinv.pshape hinv.fshape
  have hLlen : st.leaves.length = s + 1 := by
    have := congrArg List.length hinv.leaves_idx
    simpa using this
  have hinner0 : InnerInv n s 0
      ({ tree := st.tree, idx := st.idx, new_counts := List.replicate n 0, new_leaves := [],
         migration_matrix := st.migration_matrix, rng := st.rng } : GenAcc σ) := by
    constructor
    · show st.idx = 2 * s + 1 + 2 * 0
      have h := hinv.idx_eq
      omega
    · show st.tree.nodes.length = 2 * s + 1 + 2 * 0
      have h := hinv.len_eq
      omega
    · rfl
    · intro p hp
      simp at hp
    · intro i
      show st.tree.childrenAt i = [] ↔ s + 0 ≤ i
      rw [hinv.childless i]
      omega
    · show st.tree.totalChildren = 2 * s + 2 * 0
      have h := hinv.total
      omega
    · intro c
      show st.tree.childCount c = if 1 ≤ c ∧ c < 2 * s + 1 + 2 * 0 then 1 else 0
      rw [hinv.ccount c]
    · exact hinv.tshape
    · show tallySum st.migration_matrix = 2 * s + 2 * 0
      have h := hinv.tsum
      omega
    · exact List.length_replicate n 0
  obtain ⟨a', hl, hinvm⟩ := leavesLoop_inv env lambda
    (PMatrix.rescale_from_frequencies env.fexp st.pmatrix st.frequencies) n s hok hn hps
    st.leaves 0 _ (by rw [hLlen]; simpa using hinv.leaves_idx) hinv.leaves_lab
    (by rw [hLlen]; omega) hinner0
  have hgs : genStep env lambda n st = some
      { pmatrix := PMatrix.rescale_from_frequencies env.fexp st.pmatrix st.frequencies,
        tree := a'.tree, idx := a'.idx, leaves := a'.new_leaves,
        frequencies := a'.new_counts.map (fun c : ℕ => (c : ℚ) / (a'.new_leaves.length : ℚ)),
        migration_matrix := a'.migration_matrix, rng := a'.rng } := by
    have e : genStep env lambda n st
        = match leavesLoop env lambda
            (PMatrix.rescale_from_frequencies env.fexp st.pmatrix st.frequencies) st.leaves
            { tree := st.tree, idx := st.idx, new_counts := List.replicate n 0,
              new_leaves := [], migration_matrix := st.migration_matrix, rng := st.rng } with
          | none => none
          | some a => some
              { pmatrix := PMatrix.rescale_from_frequencies env.fexp st.pmatrix st.frequencies,
                tree := a.tree, idx := a.idx, leaves := a.new_leaves,
                frequencies := a.new_counts.map (fun c : ℕ => (c : ℚ) / (a.new_leaves.length : ℚ)),
                migration_matrix := a.migration_matrix, rng := a.rng } := rfl
    rw [e, hl]
  refine ⟨_, hgs, ?_⟩
  constructor
  · show a'.idx = 2 * (2 * s + 1) + 1
    have h := hinvm.idx_eq
    omega
  · show a'.tree.nodes.length = 2 * (2 * s + 1) + 1
    have h := hinvm.len_eq
    omega
  · show a'.new_leaves.map Prod.fst = List.range' (2 * s + 1) (2 * s + 1 + 1)
    rw [hinvm.newl_idx]
    congr 1
  · exact hinvm.newl_lab
  · intro i
    show a'.tree.childrenAt i = [] ↔ 2 * s + 1 ≤ i
    rw [hinvm.childless i]
    omega
  · show a'.tree.totalChildren = 2 * (2 * s + 1)
    have h := hinvm.total
    omega
  · intro c
    show a'.tree.childCount c = if 1 ≤ c ∧ c < 2 * (2 * s + 1) + 1 then 1 else 0
    rw [hinvm.ccount c]
    split_ifs <;> omega
  · exact hinvm.tshape
  · show tallySum a'.migration_matrix = 2 * (2 * s + 1)
    have h := hinvm.tsum
    omega
  · exact hps
  · show (a'.new_counts.map (fun c : ℕ => (c : ℚ) / (a'.new_leaves.length : ℚ))).length = n
    simp [hinvm.cshape]

/-- Running the generation loop for `g` generations sends the invariant
index `s` to `(s + 1) * 2 ^ g - 1`. -/
theorem genLoop_inv {σ : Type} (env : SimEnv σ) (lambda : ℚ) (n : ℕ)
    (hok : EnvOk env) (hn : 0 < n) :
    ∀ (g : ℕ) (s : ℕ) (st : SimState σ), SimInv n s st →
      ∃ st', genLoop env lambda n g st = some st' ∧ SimInv n ((s + 1) * 2 ^ g - 1) st'
  | 0, s, st, hinv => ⟨st, rfl, by simpa using hinv⟩
  | g + 1, s, st, hinv => by
      obtain ⟨st1, h1, hinv1⟩ := genStep_inv env lambda n s st hok hn hinv
      obtain ⟨st', h2, hinv2⟩ := genLoop_inv env lambda n hok hn g (2 * s + 1) st1 hinv1
      have hA : (2 * s + 1 + 1) * 2 ^ g = (s + 1) * 2 ^ (g + 1) := by
        rw [pow_succ]
        ring
      rw [hA] at hinv2
      refine ⟨st', ?_, hinv2⟩
      have e : genLoop env lambda n (g + 1) st
          = match genStep env lambda n st with
            | none => none
            | some x => genLoop env lambda n g x := rfl
      rw [e, h1]
      exact h2

/-- `List.getElem` characterization of `countP` when the predicate holds
exactly on a final segment of indices. -/
theorem countP_of_char {α : Type} (p : α → Bool) (d : α) :
    ∀ (l : List α) (s : ℕ), (∀ i, i < l.length → (p (l.getD i d) = true ↔ s ≤ i)) →
      l.countP p = l.length - s
  | [], _, _ => by simp
  | a :: l, 0, hc => by
      have hall : ∀ x ∈ a :: l, p x = true := by
        intro x hx
        rcases List.mem_iff_getElem.mp hx with ⟨i, hi, hgx⟩
        have hp := (hc i hi).mpr (Nat.zero_le i)
        rw [List.getD_eq_getElem _ _ hi, hgx] at hp
        exact hp
      rw [List.countP_eq_length.mpr hall]
      simp
  | a :: l, s + 1, hc => by
      have ha : p a = false := by
        have h0 := hc 0 (by simp)
        simp only [List.getD_cons_zero] at h0
        by_cases hpa : p a
        · exact absurd (h0.mp hpa) (by omega)
        · simpa using hpa
      have ih := countP_of_char p d l s (fun i hi => by
        have := hc (i + 1) (by simpa using hi)
        simpa using this)
      rw [List.countP_cons, ih, ha]
      simp

/-- A tree whose childless nodes are exactly the indices from `s` on has
`nodes.length - s` leaves. -/
theorem leaves_count_from_char (t : Phylogeny) (s : ℕ)
    (hchar : ∀ i, t.childrenAt i = [] ↔ s ≤ i) :
    t.leaves.length = t.nodes.length - s := by
  rw [leaves_length_eq_countP]
  apply countP_of_char _ dummyNode
  intro i _
  rw [List.isEmpty_iff]
  exact hchar i

/-- A successful run of `yule_migrations` satisfies the final invariant. -/
theorem yule_migrations_inv {σ : Type} (env : SimEnv σ) (lambda : ℚ) (g n : ℕ) (m_prob : ℚ)
    (seed : ℕ) (t : Phylogeny) (mig : List (List ℕ)) (hok : EnvOk env)
    (he : yule_migrations env lambda g n m_prob seed = some (t, mig)) :
    0 < n ∧ ∃ st' : SimState σ, t = st'.tree ∧ mig = st'.migration_matrix
      ∧ SimInv n (2 ^ g - 1) st' := by
  simp only [yule_migrations] at he
  split_ifs at he with hL hN
  have hn : 0 < n := Nat.pos_of_ne_zero hN
  refine ⟨hn, ?_⟩
  have hinv0 : SimInv n 0
      ({ pmatrix := PMatrix.new_with_initial_conditions n m_prob,
         tree := Phylogeny.new (Node.root 0 0) (env.expSample lambda (env.seedFrom seed)).1,
         idx := 1, leaves := [(0, 0)],
         frequencies := (List.replicate n (0 : ℚ)).set 0 1,
         migration_matrix := List.replicate n (List.replicate n 0),
         rng := (env.expSample lambda (env.seedFrom seed)).2 } : SimState σ) := by
    constructor
    · rfl
    · rfl
    · rfl
    · intro p hp
      rw [List.mem_singleton.mp hp]
      exact hn
    · intro i
      constructor
      · intro _
        omega
      · intro _
        match i with
        | 0 => rfl
        | k + 1 => rfl
    · rfl
    · intro c
      rw [if_neg (by omega)]
      rfl
    · constructor
      · exact List.length_replicate n _
      · intro i hi
        rw [List.getD_eq_getElem _ _ (by simpa using hi)]
        simp
    · show tallySum (List.replicate n (List.replicate n 0)) = 2 * 0
      unfold tallySum
      simp
    · constructor
      · simp [PMatrix.new_with_initial_conditions]
      · intro i hi
        unfold PMatrix.new_with_initial_conditions
        rw [getD_map_range _ _ hi]
        simp
    · simp
  obtain ⟨st', hrun, hinv⟩ := genLoop_inv env lambda n hok hn g 0 _ hinv0
  split at he
  · exact absurd he (by simp)
  · rename_i st heq
    rw [Option.some.injEq, Prod.mk.injEq] at he
    obtain ⟨ht, hm⟩ := he
    rw [hrun, Option.some.injEq] at heq
    subst heq
    refine ⟨st', ht.symm, hm.symm, ?_⟩
    simpa using hinv

/-- C2: for every `g ≥ 0`, a completed run of `yule_migrations` (any
parameters and seed, any crate environment satisfying the `WeightedIndex`
index contract) yields an arena with exactly `2^g` leaves and
`2^(g+1) - 1` nodes, whose `edges()` yields exactly `nodeCount - 1`
triples with each non-root index `1 ≤ c < nodeCount` occurring as a child
in exactly one edge. -/
theorem C2_tree_counts {σ : Type} (env : SimEnv σ) (lambda : ℚ) (g n : ℕ) (m_prob : ℚ)
    (seed : ℕ) (t : Phylogeny) (mig : List (List ℕ)) (hok : EnvOk env)
    (he : yule_migrations env lambda g n m_prob seed = some (t, mig)) :
    t.leaves.length = 2 ^ g ∧
    t.nodes.length = 2 ^ (g + 1) - 1 ∧
    t.edges.length = t.nodes.length - 1 ∧
    ∀ c, 1 ≤ c → c < t.nodes.length → t.edges.countP (fun e => e.2.1 = c) = 1 := by
  obtain ⟨hn, st', ht, hm, hinv⟩ := yule_migrations_inv env lambda g n m_prob seed t mig hok he
  subst ht
  have hp : 0 < (2 : ℕ) ^ g := pow_pos (by norm_num) g
  have hp1 : (2 : ℕ) ^ (g + 1) = 2 * 2 ^ g := by
    rw [pow_succ]
    ring
  have hlen := hinv.len_eq
  have htot := hinv.total
  refine ⟨?_, ?_, ?_, ?_⟩
  · rw [leaves_count_from_char st'.tree (2 ^ g - 1) hinv.childless, hlen]
    omega
  · omega
  · rw [edges_length, htot]
    omega
  · intro c h1 h2
    rw [edges_countP, hinv.ccount c, if_pos ⟨h1, by omega⟩]

/-- C3: for every `g ≥ 0` and completed run, the sum of ALL entries of
the tally matrix (diagonal self-transitions included) equals the total
number of edges created, `2^(g+1) - 2`. -/
theorem C3_tally_total {σ : Type} (env : SimEnv σ) (lambda : ℚ) (g n : ℕ) (m_prob : ℚ)
    (seed : ℕ) (t : Phylogeny) (mig : List (List ℕ)) (hok : EnvOk env)
    (he : yule_migrations env lambda g n m_prob seed = some (t, mig)) :
    tallySum mig = 2 ^ (g + 1) - 2 := by
  obtain ⟨hn, st', ht, hm, hinv⟩ := yule_migrations_inv env lambda g n m_prob seed t mig hok he
  subst hm
  have hp : 0 < (2 : ℕ) ^ g := pow_pos (by norm_num) g
  have hp1 : (2 : ℕ) ^ (g + 1) = 2 * 2 ^ g := by
    rw [pow_succ]
    ring
  have h := hinv.tsum
  omega

/-- The arena produced by `yule_migrations toyEnv 1 2 2 (1/2) 0`. -/
def simW : Phylogeny :=
  { nodes := [{ data := 0, label := 0, parent := none, children := [(1, 1), (2, 1)] },
              { data := 1, label := 0, parent := some 0, children := [(3, 1), (4, 1)] },
              { data := 2, label := 0, parent := some 0, children := [(5, 1), (6, 1)] },
              { data := 3, label := 0, parent := some 1, children := [] },
              { data := 4, label := 0, parent := some 1, children := [] },
              { data := 5, label := 0, parent := some 2, children := [] },
              { data := 6, label := 0, parent := some 2, children := [] }],
    root_length := 1, root := 0 }

/-- The tally produced by `yule_migrations toyEnv 1 2 2 (1/2) 0`. -/
def simWtally : List (List ℕ) := [[6, 0], [0, 0]]

theorem C2_witness :
    simW.leaves.length = 2 ^ 2 ∧ simW.nodes.length = 2 ^ (2 + 1) - 1 ∧
    simW.edges.length = simW.nodes.length - 1 ∧
    simW.edges.countP (fun e => e.2.1 = 3) = 1 := by
  have h := C2_tree_counts toyEnv 1 2 2 (1 / 2) 0 simW simWtally toyEnvOk (by decide)
  exact ⟨h.1, h.2.1, h.2.2.1, h.2.2.2 3 (by decide) (by decide)⟩

theorem C3_witness : tallySum simWtally = 2 ^ (2 + 1) - 2 :=
  C3_tally_total toyEnv 1 2 2 (1 / 2) 0 simW simWtally toyEnvOk (by decide)
